import Mathlib

/-!
A shallow embedding of `processflows.py` (scj39/flowlogschallenge).

Python dictionaries (`defaultdict(int)`, `defaultdict(list)`) are modelled as
association lists in insertion order with unique keys maintained by
construction; `dlookup` is `d.get(k)` and `setItem` is `d[k] = v`
(update in place, or append a fresh key at the end, exactly the Python dict
discipline).  Python `==` on dicts ignores insertion order, so map equality in
the theorems below is extensional equality of `dlookup`.  Exceptions raised by
the Python code (tuple-unpacking errors, `KeyError`, `functools.reduce` on an
empty sequence) are modelled by `Option.none`.
-/

namespace Flowlogs

/-- `d.get(k)`: the value stored at the first occurrence of key `k`, if any. -/
def dlookup [DecidableEq α] : List (α × β) → α → Option β
  | [], _ => none
  | (k1, v1) :: rest, k => if k = k1 then some v1 else dlookup rest k

/-- `d[k] = v`: replace the value at key `k` in place, or append a new entry
at the end when `k` is absent (Python dict insertion-order semantics). -/
def setItem [DecidableEq α] : List (α × β) → α → β → List (α × β)
  | [], k, v => [(k, v)]
  | (k1, v1) :: rest, k, v =>
      if k = k1 then (k, v) :: rest else (k1, v1) :: setItem rest k v

/-- The keys of the modelled dict, in insertion order. -/
def dkeys (d : List (α × β)) : List α := d.map Prod.fst

/-- A dict built by `setItem` from `[]` never has a duplicated key; theorems
that quantify over arbitrary maps carry this as the dict-ness hypothesis. -/
def NodupKeys (d : List (α × β)) : Prop := (dkeys d).Nodup

instance instNodupKeysDecidable [DecidableEq α] (d : List (α × β)) :
    Decidable (NodupKeys d) :=
  inferInstanceAs (Decidable (dkeys d).Nodup)

theorem dlookup_setItem [DecidableEq α] (d : List (α × β)) (k k0 : α) (v : β) :
    dlookup (setItem d k v) k0 = if k0 = k then some v else dlookup d k0 := by
  induction d with
  | nil =>
      by_cases h : k0 = k <;> simp [setItem, dlookup, h]
  | cons hd tl ih =>
      obtain ⟨k1, v1⟩ := hd
      by_cases h1 : k = k1
      · subst h1
        by_cases h0 : k0 = k <;> simp [setItem, dlookup, h0]
      · by_cases h0 : k0 = k
        · subst h0
          simp [setItem, dlookup, h1, ih]
        · by_cases h01 : k0 = k1 <;>
            simp [setItem, dlookup, h1, Ne.symm h1, h0, h01, ih]

theorem dkeys_setItem [DecidableEq α] (d : List (α × β)) (k : α) (v : β) :
    dkeys (setItem d k v) = if k ∈ dkeys d then dkeys d else dkeys d ++ [k] := by
  induction d with
  | nil => simp [setItem, dkeys]
  | cons hd tl ih =>
      obtain ⟨k1, v1⟩ := hd
      by_cases h1 : k = k1
      · subst h1
        simp [setItem, dkeys]
      · simp only [setItem, if_neg h1, dkeys, List.map_cons] at ih ⊢
        rw [ih]
        by_cases hm : k ∈ List.map Prod.fst tl
        · simp [hm, h1]
        · simp [hm, h1]

theorem nodupKeys_setItem [DecidableEq α] (d : List (α × β)) (k : α) (v : β)
    (h : NodupKeys d) : NodupKeys (setItem d k v) := by
  unfold NodupKeys at *
  rw [dkeys_setItem]
  by_cases hm : k ∈ dkeys d
  · simpa [hm] using h
  · simp [hm, List.nodup_append, h]

theorem dlookup_eq_none_iff [DecidableEq α] (d : List (α × β)) (k : α) :
    dlookup d k = none ↔ k ∉ dkeys d := by
  induction d with
  | nil => simp [dlookup, dkeys]
  | cons hd tl ih =>
      obtain ⟨k1, v1⟩ := hd
      by_cases h : k = k1 <;> simp [dlookup, dkeys, h] at ih ⊢ <;> simpa [dkeys] using ih

/-! ### Data model (spec §3)

`Key` is the `(destination_port, protocol_name)` pair for flow records and the
`(port, protocol)` pair for lookup entries; both components stay strings, as
the Python code never converts `dstport` / lookup fields to integers. -/

abbrev Key := String × String

abbrev FrequencyMap := List (Key × Nat)

abbrev LookupMap := List (String × List Key)

abbrev TagCountMap := List (String × Int)

/-- `merge(left, right)` (processflows.py lines 60-66): for each key of
`right`, `left[key] += right[key]` and return `left`.  `left` is a
`defaultdict`, so a key absent from `left` starts from the default value
`dflt` (`0` for `defaultdict(int)`, `[]` for `defaultdict(list)`); `add` is
the `+` of the value type (integer addition, list concatenation). -/
def merge [DecidableEq α] (dflt : β) (add : β → β → β)
    (left right : List (α × β)) : List (α × β) :=
  right.foldl (fun l kv => setItem l kv.1 (add ((dlookup l kv.1).getD dflt) kv.2)) left

/-- `merge` at the `defaultdict(int)` type used for flow frequency maps. -/
def mergeFreq : FrequencyMap → FrequencyMap → FrequencyMap :=
  merge 0 (· + ·)

/-- `merge` at the `defaultdict(list)` type used for lookup maps. -/
def mergeLookup : LookupMap → LookupMap → LookupMap :=
  merge [] (· ++ ·)

/-- The slicing loop of `chunk`, structurally recursive on a fuel bounded by
the number of remaining lines (each slice removes at least one line when
`chunk_size ≥ 1`, so a fuel equal to the initial length never runs out). -/
def chunkAux (chunk_size : Nat) : Nat → List α → List (List α)
  | _, [] => []
  | 0, _ => []
  | fuel + 1, logs => logs.take chunk_size :: chunkAux chunk_size fuel (logs.drop chunk_size)

/-- `chunk(logs, chunk_size)` (lines 69-75): the successive slices
`logs[index : index + chunk_size]` for `index = 0, chunk_size, 2*chunk_size, …`.
`chunk_size <= 0` is a caller contract violation in the source (`range` with
step 0 raises); it is mapped to the empty sequence here and every claim
assumes `0 < chunk_size`. -/
def chunk (logs : List α) (chunk_size : Nat) : List (List α) :=
  if chunk_size = 0 then [] else chunkAux chunk_size logs.length logs

/-- The fuel does not matter as long as it is at least the number of
remaining lines. -/
theorem chunkAux_fuel_irrel (c : Nat) (hc : c ≠ 0) :
    ∀ (fuel1 : Nat) (logs : List α) (fuel2 : Nat), logs.length ≤ fuel1 →
      logs.length ≤ fuel2 → chunkAux c fuel1 logs = chunkAux c fuel2 logs := by
  intro fuel1
  induction fuel1 with
  | zero =>
      intro logs fuel2 h1 _
      have : logs = [] := List.length_eq_zero.mp (Nat.le_zero.mp h1)
      subst this
      cases fuel2 <;> rfl
  | succ f1 ih =>
      intro logs fuel2 h1 h2
      cases logs with
      | nil => cases fuel2 <;> rfl
      | cons a rest =>
          cases fuel2 with
          | zero => simp at h2
          | succ f2 =>
              show (a :: rest).take c :: chunkAux c f1 ((a :: rest).drop c) =
                (a :: rest).take c :: chunkAux c f2 ((a :: rest).drop c)
              rw [ih ((a :: rest).drop c) f2 ?_ ?_] <;>
                simp only [List.length_drop, List.length_cons] at * <;> omega

/-! ### Tag Reconciler (spec §4.5, processflows.py lines 78-98) -/

/-- One inner-loop step of `get_tag_count` (lines 89-91): look the Key up in
the frequency map (`.get(protocolport, 0)`); the walrus `if occurences := …:`
runs the body exactly when the value is non-zero (Python truthiness), adding
it to the tag's running count and to the `tagged_entries` accumulator. -/
def gtcStep (protocolportcount : FrequencyMap) (tag : String)
    (acc : TagCountMap × Nat) (protocolport : Key) : TagCountMap × Nat :=
  let occurences := (dlookup protocolportcount protocolport).getD 0
  if occurences ≠ 0 then
    (setItem acc.1 tag (((dlookup acc.1 tag).getD 0) + (occurences : Int)),
     acc.2 + occurences)
  else acc

/-- The double loop of `get_tag_count` (lines 87-91), returning the pair
`(tag2count, tagged_entries)`. -/
def gtcLoop (protocolportcount : FrequencyMap) (tag2protocolport : LookupMap) :
    TagCountMap × Nat :=
  tag2protocolport.foldl
    (fun acc t => t.2.foldl (gtcStep protocolportcount t.1) acc) ([], 0)

/-- `totalentries = sum(protocolportcount.values())` (line 84). -/
def totalentries (protocolportcount : FrequencyMap) : Nat :=
  (protocolportcount.map Prod.snd).sum

/-- The value `untagged_count = totalentries - tagged_entries` computed on
line 93 (an `int` in Python, so the subtraction may go negative). -/
def untaggedCount (protocolportcount : FrequencyMap)
    (tag2protocolport : LookupMap) : Int :=
  (totalentries protocolportcount : Int)
    - ((gtcLoop protocolportcount tag2protocolport).2 : Int)

/-- `get_tag_count` (lines 78-98).  Note the walrus test
`if untagged_count := totalentries - tagged_entries:` adds the `"untagged"`
entry exactly when the value is non-zero — also when it is negative. -/
def get_tag_count (protocolportcount : FrequencyMap)
    (tag2protocolport : LookupMap) : TagCountMap :=
  let acc := gtcLoop protocolportcount tag2protocolport
  let untagged_count := (totalentries protocolportcount : Int) - (acc.2 : Int)
  if untagged_count ≠ 0 then setItem acc.1 "untagged" untagged_count else acc.1

/-! ### Python string primitives

The string methods the parsers use (`str.strip`, `str.split(sep)`,
`str.lower`, `int(...)`) are modelled by structural recursion over the
character list of the string, following the Python semantics: `strip` drops
the whitespace characters `' '`, `\t`, `\n`, `\r`, `\x0b`, `\x0c` from both
ends; `split(sep)` cuts at every single occurrence of `sep`, keeping empty
fields; `lower` maps ASCII upper-case letters to lower-case; `int(...)`
accepts an optional sign followed by at least one decimal digit and rejects
anything else. -/

def isPySpace (c : Char) : Bool :=
  c = ' ' || c = '\t' || c = '\n' || c = '\r' || c = '\x0b' || c = '\x0c'

/-- `str.strip()`. -/
def pyStrip (s : String) : String :=
  String.mk (((s.data.dropWhile isPySpace).reverse.dropWhile isPySpace).reverse)

def pySplitAux (sep : Char) : List Char → List Char → List String
  | [], acc => [String.mk acc.reverse]
  | c :: cs, acc =>
      if c = sep then String.mk acc.reverse :: pySplitAux sep cs []
      else pySplitAux sep cs (c :: acc)

/-- `str.split(sep)` for a one-character separator. -/
def pySplit (sep : Char) (s : String) : List String :=
  pySplitAux sep s.data []

/-- `str.lower()`. -/
def pyLower (s : String) : String :=
  String.mk (s.data.map Char.toLower)

def pyDigits : List Char → Nat → Option Nat
  | [], acc => some acc
  | c :: cs, acc =>
      if c.isDigit then pyDigits cs (acc * 10 + (c.toNat - 48)) else none

/-- `int(s)`: an optional sign followed by at least one decimal digit
(`ValueError` on anything else is modelled by `none`). -/
def pyInt (s : String) : Option Int :=
  match s.data with
  | [] => none
  | '-' :: cs => if cs.isEmpty then none else (pyDigits cs 0).map (fun n => -(n : Int))
  | '+' :: cs => if cs.isEmpty then none else (pyDigits cs 0).map (fun n => (n : Int))
  | cs => (pyDigits cs 0).map (fun n => (n : Int))

/-! ### Record parsers (spec §4.2, processflows.py lines 106-151) -/

/-- `LogPrefs.process_line` (lines 112-113): `line.strip().split(" ")`. -/
def logProcessLine (line : String) : List String :=
  pySplit ' ' (pyStrip line)

/-- Parsing one flow-record line inside `LogPrefs.process_entry`
(lines 118-135): the processed line is unpacked into exactly 14 positional
fields (a mismatch raises, modelled by `none`); only `dstport` (field 7) and
`protocol` (field 8) are retained, and the protocol code is resolved through
the injected integer-to-name map `int2protocolmap` (a code missing from the
map raises `KeyError`, modelled by `none`).  The map itself lives in the
external `constants` module, so it is a parameter `pmap` here. -/
def logParseLine (pmap : Int → Option String) (line : String) : Option Key :=
  match logProcessLine line with
  | [_version, _account_id, _interface_id, _srcaddr, _dstaddr, _srcport,
     dstport, protocol, _packets, _size, _start, _end, _action, _log_status] =>
      match pyInt protocol with
      | some code =>
          match pmap code with
          | some name => some (dstport, name)
          | none => none
      | none => none
  | _ => none

/-- One iteration of the `for line in chunk` loop of `LogPrefs.process_entry`:
`frequency[(dstport, int2protocolmap[int(protocol)])] += 1`. -/
def logStep (pmap : Int → Option String) (frequency : FrequencyMap)
    (line : String) : Option FrequencyMap :=
  (logParseLine pmap line).map
    (fun k => setItem frequency k ((dlookup frequency k).getD 0 + 1))

/-- `LogPrefs.process_entry` (lines 115-136): fold the per-line increment over
the batch starting from an empty `defaultdict(int)`; any parse error aborts
the whole batch. -/
def logProcessEntry (pmap : Int → Option String) (chunk : List String) :
    Option FrequencyMap :=
  chunk.foldlM (logStep pmap) []

/-- `LookupPrefs.process_line` (lines 140-141): `line.strip().split(",")`. -/
def lookupProcessLine (line : String) : List String :=
  pySplit ',' (pyStrip line)

/-- One iteration of the `for line in chunk` loop of
`LookupPrefs.process_entry` (lines 145-150): unpack into exactly 3 fields
(a mismatch raises, modelled by `none`); skip the line when the raw tag field
equals the header literal `"tag"`; otherwise append `(dest_port, protocol)`
verbatim to the list stored under the lower-cased tag (a `defaultdict(list)`
access creates the empty list first). -/
def lookupStep (frequency : LookupMap) (line : String) : Option LookupMap :=
  match lookupProcessLine line with
  | [dest_port, protocol, tag] =>
      some (if tag = "tag" then frequency
            else setItem frequency (pyLower tag)
              (((dlookup frequency (pyLower tag)).getD []) ++ [(dest_port, protocol)]))
  | _ => none

/-- `LookupPrefs.process_entry` (lines 143-151). -/
def lookupProcessEntry (chunk : List String) : Option LookupMap :=
  chunk.foldlM lookupStep []

/-! ### Map/Reduce pipeline (spec §4.3-4.4, processflows.py lines 159-175) -/

/-- `functools.reduce(merge, mapped_dictionaries)` (line 174): `reduce`
without an initial value raises `TypeError` on an empty sequence (modelled by
`none`), else folds left-to-right from the first element. -/
def pyreduce (mrg : M → M → M) : List M → Option M
  | [] => none
  | p :: ps => some (ps.foldl mrg p)

/-- The pure core of `process_file` (lines 159-175) after the file's lines
have been read: chunk the lines, run `prefs.process_entry` on every batch
(`asyncio.gather` keeps the submission order, and any worker exception aborts
the whole run — `Option` fail-fast), then `reduce(merge, …)`.  Opening the
file, `readlines`, and the process pool are external I/O collaborators. -/
def process_file (pe : List String → Option M) (mrg : M → M → M)
    (lines : List String) (chunk_size : Nat) : Option M :=
  match (chunk lines chunk_size).mapM pe with
  | some parts => pyreduce mrg parts
  | none => none

/-! ### Lemmas about `merge` -/

/-- Sum of the counts stored in a modelled `defaultdict(int)`. -/
def sumValues (m : List (α × Nat)) : Nat := (m.map Prod.snd).sum

theorem sumValues_setItem [DecidableEq α] (d : List (α × Nat)) (k : α) (v : Nat) :
    sumValues (setItem d k ((dlookup d k).getD 0 + v)) = sumValues d + v := by
  induction d with
  | nil => simp [setItem, dlookup, sumValues]
  | cons hd tl ih =>
      obtain ⟨k1, v1⟩ := hd
      by_cases h : k = k1
      · subst h
        simp [setItem, dlookup, sumValues]
        omega
      · simp [setItem, dlookup, sumValues, h] at ih ⊢
        omega

theorem merge_nil [DecidableEq α] (dflt : β) (add : β → β → β)
    (a : List (α × β)) : merge dflt add a [] = a := rfl

theorem merge_cons [DecidableEq α] (dflt : β) (add : β → β → β)
    (a b1 : List (α × β)) (k1 : α) (v1 : β) :
    merge dflt add a ((k1, v1) :: b1) =
      merge dflt add (setItem a k1 (add ((dlookup a k1).getD dflt) v1)) b1 := rfl

theorem nodupKeys_merge [DecidableEq α] (dflt : β) (add : β → β → β)
    (a b : List (α × β)) (ha : NodupKeys a) : NodupKeys (merge dflt add a b) := by
  induction b generalizing a with
  | nil => exact ha
  | cons hd b1 ih =>
      obtain ⟨k1, v1⟩ := hd
      rw [merge_cons]
      exact ih _ (nodupKeys_setItem _ _ _ ha)

/-- The value-level behaviour of `merge`: a key of `right` ends up bound to
`add` of the two sides (`left` contributing its default when absent), any
other key keeps its `left` binding.  `right` is a dict, so its keys are
unique. -/
theorem dlookup_merge [DecidableEq α] (dflt : β) (add : β → β → β)
    (a b : List (α × β)) (hb : NodupKeys b) (k : α) :
    dlookup (merge dflt add a b) k =
      match dlookup b k with
      | some v => some (add ((dlookup a k).getD dflt) v)
      | none => dlookup a k := by
  induction b generalizing a with
  | nil => simp [merge_nil, dlookup]
  | cons hd b1 ih =>
      obtain ⟨k1, v1⟩ := hd
      have h0 := List.nodup_cons.mp
        (show (k1 :: List.map Prod.fst b1).Nodup from hb)
      have hb1 : NodupKeys b1 := h0.2
      have hk1 : k1 ∉ dkeys b1 := h0.1
      rw [merge_cons, ih _ hb1]
      by_cases h : k = k1
      · subst h
        have hnone : dlookup b1 k = none := (dlookup_eq_none_iff b1 k).mpr hk1
        simp [hnone, dlookup, dlookup_setItem]
      · simp only [dlookup, if_neg h]
        cases hv : dlookup b1 k <;> simp [dlookup_setItem, h]

theorem sumValues_mergeFreq (a b : FrequencyMap) :
    sumValues (mergeFreq a b) = sumValues a + sumValues b := by
  show sumValues (merge 0 (· + ·) a b) = _
  induction b generalizing a with
  | nil => simp [merge_nil, sumValues]
  | cons hd b1 ih =>
      obtain ⟨k1, v1⟩ := hd
      rw [merge_cons, ih]
      rw [sumValues_setItem]
      simp [sumValues]
      omega

theorem dlookup_mergeFreq_getD (a b : FrequencyMap) (hb : NodupKeys b) (k : Key) :
    (dlookup (mergeFreq a b) k).getD 0 =
      (dlookup a k).getD 0 + (dlookup b k).getD 0 := by
  have h := dlookup_merge 0 (· + ·) a b hb k
  cases hv : dlookup b k <;> rw [hv] at h <;> simp [mergeFreq] at h ⊢ <;> simp [h]

theorem dlookup_mergeFreq_isSome (a b : FrequencyMap) (hb : NodupKeys b) (k : Key) :
    (dlookup (mergeFreq a b) k).isSome =
      ((dlookup a k).isSome || (dlookup b k).isSome) := by
  have h := dlookup_merge 0 (· + ·) a b hb k
  cases hv : dlookup b k <;> rw [hv] at h <;> simp [mergeFreq] at h ⊢ <;> simp [h]

theorem dlookup_mergeLookup_getD (a b : LookupMap) (hb : NodupKeys b) (t : String) :
    (dlookup (mergeLookup a b) t).getD [] =
      (dlookup a t).getD [] ++ (dlookup b t).getD [] := by
  have h := dlookup_merge [] (· ++ ·) a b hb t
  cases hv : dlookup b t <;> rw [hv] at h <;> simp [mergeLookup] at h ⊢ <;> simp [h]

theorem dlookup_mergeLookup_isSome (a b : LookupMap) (hb : NodupKeys b) (t : String) :
    (dlookup (mergeLookup a b) t).isSome =
      ((dlookup a t).isSome || (dlookup b t).isSome) := by
  have h := dlookup_merge [] (· ++ ·) a b hb t
  cases hv : dlookup b t <;> rw [hv] at h <;> simp [mergeLookup] at h ⊢ <;> simp [h]

/-- Value-level behaviour of the whole Reduce Stage for frequency maps: the
fold over `merge` binds `k` exactly when some partial map binds it, to the sum
of all the partial values. -/
theorem dlookup_foldl_mergeFreq (ms : List FrequencyMap) (m0 : FrequencyMap)
    (hnd : ∀ m ∈ ms, NodupKeys m) (k : Key) :
    dlookup (ms.foldl mergeFreq m0) k =
      if ((dlookup m0 k).isSome || ms.any fun m => (dlookup m k).isSome)
      then some ((dlookup m0 k).getD 0 + (ms.map fun m => (dlookup m k).getD 0).sum)
      else none := by
  induction ms generalizing m0 with
  | nil => cases hv : dlookup m0 k <;> simp [hv]
  | cons b ms1 ih =>
      have hb : NodupKeys b := hnd b (by simp)
      have hnd1 : ∀ m ∈ ms1, NodupKeys m := fun m hm => hnd m (by simp [hm])
      rw [List.foldl_cons, ih (mergeFreq m0 b) hnd1,
        dlookup_mergeFreq_isSome m0 b hb, dlookup_mergeFreq_getD m0 b hb]
      simp [Bool.or_assoc, Nat.add_assoc]

/-- Value-level behaviour of the whole Reduce Stage for lookup maps: the fold
concatenates, in merge order, the per-partial-map lists at each tag. -/
theorem dlookup_foldl_mergeLookup (ms : List LookupMap) (m0 : LookupMap)
    (hnd : ∀ m ∈ ms, NodupKeys m) (t : String) :
    dlookup (ms.foldl mergeLookup m0) t =
      if ((dlookup m0 t).isSome || ms.any fun m => (dlookup m t).isSome)
      then some ((dlookup m0 t).getD [] ++ (ms.map fun m => (dlookup m t).getD []).flatten)
      else none := by
  induction ms generalizing m0 with
  | nil => cases hv : dlookup m0 t <;> simp [hv]
  | cons b ms1 ih =>
      have hb : NodupKeys b := hnd b (by simp)
      have hnd1 : ∀ m ∈ ms1, NodupKeys m := fun m hm => hnd m (by simp [hm])
      rw [List.foldl_cons, ih (mergeLookup m0 b) hnd1,
        dlookup_mergeLookup_isSome m0 b hb, dlookup_mergeLookup_getD m0 b hb]
      simp [Bool.or_assoc, List.append_assoc]

/-! ### Lemmas about the flow-record parser -/

/-- How many lines of `ls` parse to exactly the Key `k`. -/
def keyCount (pmap : Int → Option String) (ls : List String) (k : Key) : Nat :=
  ls.countP (fun l => logParseLine pmap l == some k)

theorem keyCount_nil (pmap : Int → Option String) (k : Key) :
    keyCount pmap [] k = 0 := rfl

theorem keyCount_append (pmap : Int → Option String) (a b : List String) (k : Key) :
    keyCount pmap (a ++ b) k = keyCount pmap a k + keyCount pmap b k :=
  List.countP_append _ _ _

theorem keyCount_flatten (pmap : Int → Option String) (bs : List (List String)) (k : Key) :
    keyCount pmap bs.flatten k = (bs.map fun b => keyCount pmap b k).sum := by
  induction bs with
  | nil => rfl
  | cons b bs1 ih => simp [keyCount_append, ih]

/-- The value-level behaviour of the `LogPrefs.process_entry` loop starting
from an arbitrary accumulator: a key untouched by the batch keeps its old
binding, a key some line parses to gains the number of such lines. -/
theorem dlookup_logFold (pmap : Int → Option String) (ls : List String)
    (freq m : FrequencyMap) (h : ls.foldlM (logStep pmap) freq = some m) (k : Key) :
    dlookup m k =
      if keyCount pmap ls k = 0 then dlookup freq k
      else some ((dlookup freq k).getD 0 + keyCount pmap ls k) := by
  induction ls generalizing freq with
  | nil =>
      simp only [List.foldlM_nil, pure, Option.some.injEq] at h
      subst h
      simp [keyCount_nil]
  | cons l ls1 ih =>
      rw [List.foldlM_cons] at h
      cases hp : logParseLine pmap l with
      | none => simp [logStep, hp] at h
      | some k0 =>
          simp only [logStep, hp, Option.map_some, Option.bind_eq_bind,
            Option.some_bind] at h
          have ih1 := ih _ h
          by_cases hk : k = k0
          · subst hk
            have hcnt : keyCount pmap (l :: ls1) k = keyCount pmap ls1 k + 1 := by
              simp [keyCount, List.countP_cons, hp]
            rw [hcnt, ih1]
            by_cases h0 : keyCount pmap ls1 k = 0 <;>
              simp [h0, dlookup_setItem] <;> omega
          · have hcnt : keyCount pmap (l :: ls1) k = keyCount pmap ls1 k := by
              simp [keyCount, List.countP_cons, hp, Ne.symm hk]
            rw [hcnt, ih1]
            simp [dlookup_setItem, hk]

/-- The loop succeeds as soon as every line of the batch parses. -/
theorem logFold_isSome (pmap : Int → Option String) (ls : List String)
    (freq : FrequencyMap) (h : ∀ l ∈ ls, (logParseLine pmap l).isSome) :
    ∃ m, ls.foldlM (logStep pmap) freq = some m := by
  induction ls generalizing freq with
  | nil => exact ⟨freq, rfl⟩
  | cons l ls1 ih =>
      cases hp : logParseLine pmap l with
      | none =>
          have := h l (by simp)
          rw [hp] at this
          simp at this
      | some k0 =>
          obtain ⟨m, hm⟩ :=
            ih (setItem freq k0 ((dlookup freq k0).getD 0 + 1))
              (fun x hx => h x (by simp [hx]))
          exact ⟨m, by rw [List.foldlM_cons]; simpa [logStep, hp] using hm⟩

/-- The loop preserves dict-ness of the accumulator. -/
theorem logFold_nodupKeys (pmap : Int → Option String) (ls : List String)
    (freq m : FrequencyMap) (h : ls.foldlM (logStep pmap) freq = some m)
    (hnd : NodupKeys freq) : NodupKeys m := by
  induction ls generalizing freq with
  | nil =>
      simp only [List.foldlM_nil, pure, Option.some.injEq] at h
      subst h
      exact hnd
  | cons l ls1 ih =>
      rw [List.foldlM_cons] at h
      cases hp : logParseLine pmap l with
      | none => simp [logStep, hp] at h
      | some k0 =>
          simp only [logStep, hp, Option.map_some, Option.bind_eq_bind,
            Option.some_bind] at h
          exact ih _ h (nodupKeys_setItem _ _ _ hnd)

/-- Each line of the batch adds exactly 1 to the total stored count. -/
theorem logFold_sumValues (pmap : Int → Option String) (ls : List String)
    (freq m : FrequencyMap) (h : ls.foldlM (logStep pmap) freq = some m) :
    sumValues m = sumValues freq + ls.length := by
  induction ls generalizing freq with
  | nil =>
      simp only [List.foldlM_nil, pure, Option.some.injEq] at h
      subst h
      simp
  | cons l ls1 ih =>
      rw [List.foldlM_cons] at h
      cases hp : logParseLine pmap l with
      | none => simp [logStep, hp] at h
      | some k0 =>
          simp only [logStep, hp, Option.map_some, Option.bind_eq_bind,
            Option.some_bind] at h
          rw [ih _ h, sumValues_setItem]
          simp [List.length_cons]
          omega

/-- A single unparsable line is fatal for its whole batch: the loop raises
(returns `none`) no matter what the other lines contain. -/
theorem logFold_none_of_mem (pmap : Int → Option String) (ls : List String)
    (line : String) (hmem : line ∈ ls) (hnone : logParseLine pmap line = none) :
    ∀ freq, ls.foldlM (logStep pmap) freq = none := by
  induction ls with
  | nil => simp at hmem
  | cons a ls1 ih =>
      intro freq
      rw [List.foldlM_cons]
      rcases List.mem_cons.mp hmem with h1 | h1
      · subst h1
        simp [logStep, hnone]
      · cases ha : logParseLine pmap a with
        | none => simp [logStep, ha]
        | some k0 =>
            simp only [logStep, ha, Option.map_some, Option.bind_eq_bind,
              Option.some_bind]
            exact ih h1 _

theorem logProcessEntry_dlookup (pmap : Int → Option String) (ls : List String)
    (m : FrequencyMap) (h : logProcessEntry pmap ls = some m) (k : Key) :
    dlookup m k =
      if keyCount pmap ls k = 0 then none else some (keyCount pmap ls k) := by
  have := dlookup_logFold pmap ls [] m h k
  simpa [dlookup] using this

theorem logProcessEntry_isSome (pmap : Int → Option String) (ls : List String)
    (h : ∀ l ∈ ls, (logParseLine pmap l).isSome) :
    ∃ m, logProcessEntry pmap ls = some m :=
  logFold_isSome pmap ls [] h

theorem logProcessEntry_nodupKeys (pmap : Int → Option String) (ls : List String)
    (m : FrequencyMap) (h : logProcessEntry pmap ls = some m) : NodupKeys m :=
  logFold_nodupKeys pmap ls [] m h (by simp [NodupKeys, dkeys])

theorem logProcessEntry_sumValues (pmap : Int → Option String) (ls : List String)
    (m : FrequencyMap) (h : logProcessEntry pmap ls = some m) :
    sumValues m = ls.length := by
  have := logFold_sumValues pmap ls [] m h
  simpa [sumValues] using this

/-! ### Lemmas about `chunk` -/

theorem chunk_nil (c : Nat) : chunk ([] : List α) c = [] := by
  unfold chunk
  by_cases h : c = 0 <;> simp [h, chunkAux]

theorem chunk_cons (c : Nat) (hc : c ≠ 0) (a : α) (rest : List α) :
    chunk (a :: rest) c =
      (a :: rest).take c :: chunk ((a :: rest).drop c) c := by
  unfold chunk
  rw [if_neg hc, if_neg hc]
  have h1 : chunkAux c (a :: rest).length (a :: rest) =
      (a :: rest).take c :: chunkAux c rest.length ((a :: rest).drop c) := rfl
  rw [h1,
    chunkAux_fuel_irrel c hc rest.length ((a :: rest).drop c)
      ((a :: rest).drop c).length ?_ ?_]
  · simp only [List.length_drop, List.length_cons]
    omega
  · exact Nat.le_refl _

theorem chunk_ne_nil_eq (c : Nat) (hc : c ≠ 0) (logs : List α) (hl : logs ≠ []) :
    chunk logs c = logs.take c :: chunk (logs.drop c) c := by
  cases logs with
  | nil => exact absurd rfl hl
  | cons a rest => exact chunk_cons c hc a rest

theorem chunk_flatten : ∀ (logs : List α) (c : Nat), c ≠ 0 →
    (chunk logs c).flatten = logs
  | [], c, hc => by simp [chunk_nil]
  | a :: rest, c, hc => by
      rw [chunk_cons c hc, List.flatten_cons,
        chunk_flatten ((a :: rest).drop c) c hc]
      exact List.take_append_drop c (a :: rest)
termination_by logs => logs.length
decreasing_by
  simp only [List.length_drop, List.length_cons]
  omega

theorem chunk_eq_nil_iff (logs : List α) (c : Nat) (hc : c ≠ 0) :
    chunk logs c = [] ↔ logs = [] := by
  cases logs with
  | nil => simp [chunk_nil]
  | cons a rest => simp [chunk_cons c hc]

theorem chunk_dropLast_length : ∀ (logs : List α) (c : Nat), c ≠ 0 →
    ∀ b ∈ (chunk logs c).dropLast, b.length = c
  | [], c, hc => by simp [chunk_nil]
  | a :: rest, c, hc => by
      rw [chunk_cons c hc]
      cases htl : chunk ((a :: rest).drop c) c with
      | nil => simp
      | cons b2 bs =>
          rw [← htl]
          have hlt : c < (a :: rest).length := by
            by_contra hge
            have : (a :: rest).drop c = [] :=
              List.drop_eq_nil_iff.mpr (by omega)
            rw [this, chunk_nil] at htl
            exact absurd htl (by simp)
          intro b hb
          have hne : chunk ((a :: rest).drop c) c ≠ [] := by simp [htl]
          cases hcc : chunk ((a :: rest).drop c) c with
          | nil => exact absurd hcc hne
          | cons b2a bsa =>
              rw [hcc, List.dropLast_cons₂] at hb
              rcases List.mem_cons.mp hb with hb1 | hb2
              · subst hb1
                simp only [List.length_take, List.length_cons]
                simp only [List.length_cons] at hlt
                omega
              · have := chunk_dropLast_length ((a :: rest).drop c) c hc
                rw [hcc] at this
                exact this b hb2
termination_by logs => logs.length
decreasing_by
  all_goals simp only [List.length_drop, List.length_cons]
  all_goals omega

theorem chunk_of_length_le (logs : List α) (c : Nat) (hc : c ≠ 0)
    (hl : logs ≠ []) (hle : logs.length ≤ c) : chunk logs c = [logs] := by
  rw [chunk_ne_nil_eq c hc logs hl, List.take_of_length_le hle,
    List.drop_eq_nil_iff.mpr hle, chunk_nil]

/-! ### Helpers about `mapM` (the Parallel Map Stage) and permutations -/

theorem mapM_eq_some_forall2 (pe : σ → Option τ) :
    ∀ (bs : List σ) (parts : List τ), bs.mapM pe = some parts →
      List.Forall₂ (fun b m => pe b = some m) bs parts := by
  intro bs
  induction bs with
  | nil =>
      intro parts h
      simp only [List.mapM_nil, pure, Option.some.injEq] at h
      subst h
      exact List.Forall₂.nil
  | cons a l ih =>
      intro parts h
      rw [List.mapM_cons] at h
      cases ha : pe a with
      | none => rw [ha] at h; simp at h
      | some x =>
          rw [ha] at h
          cases hl : l.mapM pe with
          | none => rw [hl] at h; simp at h
          | some xs =>
              rw [hl] at h
              simp only [Option.bind_eq_bind, Option.some_bind, pure,
                Option.some.injEq] at h
              subst h
              exact List.Forall₂.cons ha (ih xs hl)

theorem mapM_isSome (pe : σ → Option τ) (bs : List σ)
    (h : ∀ b ∈ bs, (pe b).isSome) : ∃ parts, bs.mapM pe = some parts := by
  induction bs with
  | nil => exact ⟨[], rfl⟩
  | cons a l ih =>
      cases ha : pe a with
      | none =>
          have := h a (by simp)
          rw [ha] at this
          simp at this
      | some x =>
          obtain ⟨parts, hp⟩ := ih (fun b hb => h b (by simp [hb]))
          exact ⟨x :: parts, by rw [List.mapM_cons, ha, hp]; rfl⟩

theorem perm_any_eq (f : α → Bool) {l1 l2 : List α} (hp : l1.Perm l2) :
    l1.any f = l2.any f := by
  induction hp with
  | nil => rfl
  | cons a _ ih => simp [List.any_cons, ih]
  | swap a b l => simp [List.any_cons, ← Bool.or_assoc, Bool.or_comm]
  | trans _ _ ih1 ih2 => rw [ih1, ih2]

/-! ### Lemmas about the Tag Reconciler loop -/

theorem gtcStep_snd (f : FrequencyMap) (tag : String) (acc : TagCountMap × Nat)
    (p : Key) : (gtcStep f tag acc p).2 = acc.2 + (dlookup f p).getD 0 := by
  unfold gtcStep
  by_cases h : (dlookup f p).getD 0 ≠ 0 <;> simp [h]
  omega

theorem gtcInner_snd (f : FrequencyMap) (tag : String) (arr : List Key)
    (acc : TagCountMap × Nat) :
    (arr.foldl (gtcStep f tag) acc).2 =
      acc.2 + (arr.map fun p => (dlookup f p).getD 0).sum := by
  induction arr generalizing acc with
  | nil => simp
  | cons p arr1 ih =>
      rw [List.foldl_cons, ih, gtcStep_snd]
      simp [Nat.add_assoc]

/-- `tagged_entries` adds the frequency count of every Key occurrence of every
tag list independently — a Key listed twice (under one tag or several) is
counted twice, and a zero-count occurrence adds nothing. -/
theorem gtcLoop_snd (f : FrequencyMap) (lk : LookupMap) :
    (gtcLoop f lk).2 =
      (lk.map fun pr => (pr.2.map fun p => (dlookup f p).getD 0).sum).sum := by
  suffices h : ∀ acc : TagCountMap × Nat,
      (lk.foldl (fun acc t => t.2.foldl (gtcStep f t.1) acc) acc).2 =
        acc.2 + (lk.map fun pr => (pr.2.map fun p => (dlookup f p).getD 0).sum).sum by
    simpa [gtcLoop] using h ([], 0)
  induction lk with
  | nil => simp
  | cons pr lk1 ih =>
      intro acc
      rw [List.foldl_cons, ih, gtcInner_snd]
      simp [Nat.add_assoc]

theorem gtcStep_fst_lookup_other (f : FrequencyMap) (tag : String)
    (acc : TagCountMap × Nat) (p : Key) (t : String) (h : t ≠ tag) :
    dlookup (gtcStep f tag acc p).1 t = dlookup acc.1 t := by
  unfold gtcStep
  by_cases h0 : (dlookup f p).getD 0 ≠ 0 <;> simp [h0, dlookup_setItem, h]

theorem gtcStep_zero (f : FrequencyMap) (tag : String) (acc : TagCountMap × Nat)
    (p : Key) (h : (dlookup f p).getD 0 = 0) : gtcStep f tag acc p = acc := by
  simp [gtcStep, h]

theorem gtcInner_fst_lookup_untouched (f : FrequencyMap) (tag : String)
    (arr : List Key) (acc : TagCountMap × Nat) (t : String)
    (h : t ≠ tag ∨ ∀ p ∈ arr, (dlookup f p).getD 0 = 0) :
    dlookup (arr.foldl (gtcStep f tag) acc).1 t = dlookup acc.1 t := by
  induction arr generalizing acc with
  | nil => rfl
  | cons p arr1 ih =>
      rw [List.foldl_cons]
      rcases h with h | h
      · rw [ih _ (Or.inl h), gtcStep_fst_lookup_other f tag acc p t h]
      · rw [ih _ (Or.inr fun q hq => h q (by simp [hq])),
          gtcStep_zero f tag acc p (h p (by simp))]

/-- A tag name that no lookup entry bears (or whose every listed Key has a
zero count) is absent from the loop's `tag2count`. -/
theorem gtcLoop_fst_lookup_none (f : FrequencyMap) (lk : LookupMap) (t : String)
    (h : ∀ pr ∈ lk, pr.1 ≠ t ∨ ∀ p ∈ pr.2, (dlookup f p).getD 0 = 0) :
    dlookup (gtcLoop f lk).1 t = none := by
  suffices hgen : ∀ acc : TagCountMap × Nat,
      dlookup (lk.foldl (fun acc pr => pr.2.foldl (gtcStep f pr.1) acc) acc).1 t =
        dlookup acc.1 t by
    simpa [gtcLoop, dlookup] using hgen ([], 0)
  induction lk with
  | nil => intro acc; rfl
  | cons pr lk1 ih =>
      intro acc
      rw [List.foldl_cons]
      have hpr := h pr (by simp)
      rw [ih (fun q hq => h q (by simp [hq])) _,
        gtcInner_fst_lookup_untouched f pr.1 pr.2 acc t]
      rcases hpr with h1 | h1
      · exact Or.inl fun he => h1 (he ▸ rfl)
      · exact Or.inr h1

/-- Every count stored by the reconciler loop is positive: an entry is only
ever created or bumped by a non-zero (hence ≥ 1) occurrence count. -/
def PosVals (m : TagCountMap) : Prop := ∀ t v, dlookup m t = some v → 0 < v

theorem gtcStep_posVals (f : FrequencyMap) (tag : String)
    (acc : TagCountMap × Nat) (p : Key) (h : PosVals acc.1) :
    PosVals (gtcStep f tag acc p).1 := by
  unfold gtcStep
  by_cases h0 : (dlookup f p).getD 0 ≠ 0
  · simp only [h0, if_true, ne_eq, not_false_eq_true]
    intro t v hv
    rw [dlookup_setItem] at hv
    by_cases ht : t = tag
    · rw [if_pos ht] at hv
      have hocc : (1 : Int) ≤ ((dlookup f p).getD 0 : Int) := by
        exact_mod_cast Nat.one_le_iff_ne_zero.mpr h0
      have hge : (0 : Int) ≤ (dlookup acc.1 tag).getD 0 := by
        cases hl : dlookup acc.1 tag with
        | none => simp
        | some w => simpa using le_of_lt (h tag w hl)
      have hveq := Option.some.inj hv
      omega
    · rw [if_neg ht] at hv
      exact h t v hv
  · simpa [h0] using h

theorem gtcLoop_posVals (f : FrequencyMap) (lk : LookupMap) :
    PosVals (gtcLoop f lk).1 := by
  suffices hgen : ∀ acc : TagCountMap × Nat, PosVals acc.1 →
      PosVals (lk.foldl (fun acc pr => pr.2.foldl (gtcStep f pr.1) acc) acc).1 by
    exact hgen ([], 0) (fun t v hv => by simp [dlookup] at hv)
  induction lk with
  | nil => exact fun acc h => h
  | cons pr lk1 ih =>
      intro acc hacc
      rw [List.foldl_cons]
      refine ih _ ?_
      clear ih
      induction pr.2 generalizing acc with
      | nil => exact hacc
      | cons p arr1 ih2 =>
          rw [List.foldl_cons]
          exact ih2 _ (gtcStep_posVals f pr.1 acc p hacc)

/-- The `"untagged"` entry of `get_tag_count`, when no lookup tag is itself
named `"untagged"`: present exactly when `untagged_count` is non-zero, bound
to that (possibly negative) value. -/
theorem dlookup_get_tag_count_untagged (f : FrequencyMap) (lk : LookupMap)
    (h : ∀ pr ∈ lk, pr.1 ≠ "untagged") :
    dlookup (get_tag_count f lk) "untagged" =
      if untaggedCount f lk = 0 then none else some (untaggedCount f lk) := by
  have hnone : dlookup (gtcLoop f lk).1 "untagged" = none :=
    gtcLoop_fst_lookup_none f lk "untagged" (fun pr hpr => Or.inl (h pr hpr))
  unfold get_tag_count untaggedCount at *
  by_cases h0 : (totalentries f : Int) - ((gtcLoop f lk).2 : Int) = 0
  · simp [h0, hnone]
  · simp [h0, dlookup_setItem]

theorem forall2_mem_right {R : σ → τ → Prop} :
    ∀ {bs : List σ} {ms : List τ}, List.Forall₂ R bs ms →
      ∀ m ∈ ms, ∃ b ∈ bs, R b m := by
  intro bs ms h
  induction h with
  | nil => simp
  | cons hr _ ih =>
      intro m hm
      rcases List.mem_cons.mp hm with h1 | h1
      · exact ⟨_, by simp, h1 ▸ hr⟩
      · obtain ⟨b, hb, hbr⟩ := ih m h1
        exact ⟨b, by simp [hb], hbr⟩

theorem forall2_map_eq {R : σ → τ → Prop} (f : τ → γ) (g : σ → γ) :
    ∀ {bs : List σ} {ms : List τ}, List.Forall₂ R bs ms →
      (∀ b m, R b m → f m = g b) → ms.map f = bs.map g := by
  intro bs ms h hfg
  induction h with
  | nil => rfl
  | cons hr _ ih => simp [hfg _ _ hr, ih]

theorem forall2_ne_nil {R : σ → τ → Prop} {bs : List σ} {ms : List τ}
    (h : List.Forall₂ R bs ms) (hne : bs ≠ []) : ms ≠ [] := by
  cases h with
  | nil => exact absurd rfl hne
  | cons _ _ => simp

/-! ### Characterisation of the whole flow pipeline -/

theorem sumValues_foldl_mergeFreq (ms : List FrequencyMap) (m0 : FrequencyMap) :
    sumValues (ms.foldl mergeFreq m0) = sumValues m0 + (ms.map sumValues).sum := by
  induction ms generalizing m0 with
  | nil => simp
  | cons b ms1 ih =>
      rw [List.foldl_cons, ih, sumValues_mergeFreq]
      simp [Nat.add_assoc]

/-- Value of the Reduce Stage (`reduce(merge, parts)`) at one Key, for
frequency partial maps. -/
theorem pyreduce_freq_char (ps : List FrequencyMap) (m : FrequencyMap)
    (hnd : ∀ x ∈ ps, NodupKeys x) (h : pyreduce mergeFreq ps = some m) (k : Key) :
    dlookup m k =
      if ps.any (fun x => (dlookup x k).isSome)
      then some ((ps.map fun x => (dlookup x k).getD 0).sum)
      else none := by
  cases ps with
  | nil => simp [pyreduce] at h
  | cons p ts =>
      simp only [pyreduce, Option.some.injEq] at h
      subst h
      rw [dlookup_foldl_mergeFreq ts p (fun x hx => hnd x (by simp [hx])) k]
      simp [List.any_cons]

/-- Value of the Reduce Stage at one tag, for lookup partial maps: the lists
are concatenated in merge order. -/
theorem pyreduce_lookup_char (ps : List LookupMap) (m : LookupMap)
    (hnd : ∀ x ∈ ps, NodupKeys x) (h : pyreduce mergeLookup ps = some m) (t : String) :
    dlookup m t =
      if ps.any (fun x => (dlookup x t).isSome)
      then some ((ps.map fun x => (dlookup x t).getD []).flatten)
      else none := by
  cases ps with
  | nil => simp [pyreduce] at h
  | cons p ts =>
      simp only [pyreduce, Option.some.injEq] at h
      subst h
      rw [dlookup_foldl_mergeLookup ts p (fun x hx => hnd x (by simp [hx])) t]
      simp [List.any_cons]

/-- When every line parses, the whole chunk/map/reduce pipeline succeeds and
its consolidated map sends each Key to the number of lines parsing to it
(absent when that number is zero) — independently of the batch size. -/
theorem process_file_freq_char (pmap : Int → Option String) (lines : List String)
    (c : Nat) (hc : c ≠ 0) (hne : lines ≠ [])
    (hp : ∀ l ∈ lines, (logParseLine pmap l).isSome) :
    ∃ mc, process_file (logProcessEntry pmap) mergeFreq lines c = some mc ∧
      ∀ k, dlookup mc k =
        if keyCount pmap lines k = 0 then none else some (keyCount pmap lines k) := by
  have hmemall : ∀ b ∈ chunk lines c, ∀ l ∈ b, l ∈ lines := by
    intro b hb l hl
    rw [← chunk_flatten lines c hc]
    exact List.mem_flatten.mpr ⟨b, hb, hl⟩
  have hpe : ∀ b ∈ chunk lines c, (logProcessEntry pmap b).isSome := by
    intro b hb
    obtain ⟨mb, hmb⟩ :=
      logProcessEntry_isSome pmap b (fun l hl => hp l (hmemall b hb l hl))
    simp [hmb]
  obtain ⟨parts, hparts⟩ := mapM_isSome _ _ hpe
  have hf2 := mapM_eq_some_forall2 _ _ _ hparts
  have hchne : chunk lines c ≠ [] := by
    rw [ne_eq, chunk_eq_nil_iff lines c hc]
    exact hne
  have hpne : parts ≠ [] := forall2_ne_nil hf2 hchne
  have hnd : ∀ x ∈ parts, NodupKeys x := by
    intro x hx
    obtain ⟨b, _, hbx⟩ := forall2_mem_right hf2 x hx
    exact logProcessEntry_nodupKeys pmap b x hbx
  -- the reduce step succeeds on a non-empty list of partial maps
  obtain ⟨q, qs, hqqs⟩ := List.exists_cons_of_ne_nil hpne
  have hred : pyreduce mergeFreq parts = some (qs.foldl mergeFreq q) := by
    rw [hqqs]; rfl
  refine ⟨qs.foldl mergeFreq q, ?_, ?_⟩
  · unfold process_file
    rw [hparts]
    exact hred
  · intro k
    rw [pyreduce_freq_char parts _ hnd hred k]
    -- per-part values are per-batch key counts
    have hmap : parts.map (fun x => (dlookup x k).getD 0) =
        (chunk lines c).map (fun b => keyCount pmap b k) := by
      refine forall2_map_eq _ _ hf2 ?_
      intro b x hbx
      rw [logProcessEntry_dlookup pmap b x hbx k]
      by_cases h0 : keyCount pmap b k = 0 <;> simp [h0]
    have hsum : (parts.map fun x => (dlookup x k).getD 0).sum = keyCount pmap lines k := by
      rw [hmap, ← keyCount_flatten pmap (chunk lines c) k, chunk_flatten lines c hc]
    by_cases h0 : keyCount pmap lines k = 0
    · have hall : ∀ x ∈ parts, (dlookup x k).getD 0 = 0 := by
        intro x hx
        exact List.sum_eq_zero_iff.mp (hsum.trans h0) _ (List.mem_map.mpr ⟨x, hx, rfl⟩)
      have hanyf : (parts.any fun x => (dlookup x k).isSome) = false := by
        rw [List.any_eq_false]
        intro x hx
        obtain ⟨b, _, hbx⟩ := forall2_mem_right hf2 x hx
        have hchar := logProcessEntry_dlookup pmap b x hbx k
        have hx0 := hall x hx
        by_cases hbk : keyCount pmap b k = 0
        · rw [hchar, if_pos hbk]
          simp
        · rw [hchar, if_neg hbk] at hx0
          simp at hx0
          exact absurd hx0 hbk
      rw [hanyf]
      simp [h0]
    · have hanyt : (parts.any fun x => (dlookup x k).isSome) = true := by
        rw [List.any_eq_true]
        have hex : ∃ y ∈ parts.map (fun x => (dlookup x k).getD 0), y ≠ 0 := by
          by_contra hall
          push_neg at hall
          exact h0 (by rw [← hsum]; exact List.sum_eq_zero_iff.mpr hall)
        obtain ⟨y, hy, hy0⟩ := hex
        obtain ⟨x, hx, hxy⟩ := List.mem_map.mp hy
        refine ⟨x, hx, ?_⟩
        cases hl : dlookup x k with
        | none =>
            rw [hl] at hxy
            simp at hxy
            exfalso
            omega
        | some v => rfl
      rw [hanyt]
      simp [h0, hsum]

/-! ### Claim theorems -/

/-- C9: for every list of lines and every `chunk_size > 0`, `chunk` produces
batches in input order whose concatenation is the input, every batch except
possibly the last has length exactly `chunk_size`, zero batches are produced
iff the input is empty, and a `chunk_size` larger than a non-empty input
yields exactly one batch holding the whole input. -/
theorem C9_chunker (lines : List String) (c : Nat) (hc : 0 < c) :
    (chunk lines c).flatten = lines
    ∧ (∀ b ∈ (chunk lines c).dropLast, b.length = c)
    ∧ (chunk lines c = [] ↔ lines = [])
    ∧ (lines ≠ [] → lines.length < c → chunk lines c = [lines]) := by
  have hc0 : c ≠ 0 := Nat.pos_iff_ne_zero.mp hc
  exact ⟨chunk_flatten lines c hc0, chunk_dropLast_length lines c hc0,
    chunk_eq_nil_iff lines c hc0,
    fun hne hlt => chunk_of_length_le lines c hc0 hne (le_of_lt hlt)⟩

theorem C9_chunker_witness :
    (chunk ["a", "b", "c"] 2).flatten = ["a", "b", "c"]
    ∧ chunk ["a", "b", "c"] 5 = [["a", "b", "c"]] :=
  ⟨(C9_chunker ["a", "b", "c"] 2 (by decide)).1,
   (C9_chunker ["a", "b", "c"] 5 (by decide)).2.2.2 (by decide) (by decide)⟩

/-- C2: contrary to the claim, an empty input file (zero lines, hence zero
batches) does NOT give an empty consolidated map: `reduce(merge, [])` raises
`TypeError` (modelled by `none`), for every chunk size, parser and merge. -/
theorem C2_empty_file_raises (M : Type) (pe : List String → Option M)
    (mrg : M → M → M) (c : Nat) : process_file pe mrg [] c = none := by
  unfold process_file
  rw [chunk_nil]
  simp only [List.mapM_nil, pure]
  rfl

/-- C6: `tagged_entries` adds the frequency count of every Key occurrence of
every tag's list independently, with no guard, cap or first-match-wins rule;
concretely, with flow map `{("80","tcp"): 3}` and both tags `"a"` and `"b"`
listing `("80","tcp")`, the loop counts 6 tagged entries against a total of
3, each tag gets the full count 3, and the untagged value goes negative. -/
theorem C6_double_counting :
    (∀ (f : FrequencyMap) (lk : LookupMap),
        (gtcLoop f lk).2 =
          (lk.map fun pr => (pr.2.map fun p => (dlookup f p).getD 0).sum).sum)
    ∧ totalentries [(("80", "tcp"), 3)] = 3
    ∧ (gtcLoop [(("80", "tcp"), 3)]
        [("a", [("80", "tcp")]), ("b", [("80", "tcp")])]).2 = 6
    ∧ dlookup (get_tag_count [(("80", "tcp"), 3)]
        [("a", [("80", "tcp")]), ("b", [("80", "tcp")])]) "a" = some 3
    ∧ dlookup (get_tag_count [(("80", "tcp"), 3)]
        [("a", [("80", "tcp")]), ("b", [("80", "tcp")])]) "b" = some 3
    ∧ dlookup (get_tag_count [(("80", "tcp"), 3)]
        [("a", [("80", "tcp")]), ("b", [("80", "tcp")])]) "untagged" = some (-3) := by
  refine ⟨gtcLoop_snd, ?_, ?_, ?_, ?_, ?_⟩ <;> decide

/-- C1 (counterexample): the claim says no `"untagged"` entry is present when
`untagged = total - tagged_entries` is negative, but with flow map
`{("443","tcp"): 2}` and two tags both listing `("443","tcp")` the value is
`-2` — negative — and the entry `"untagged" -> -2` IS present (Python
truthiness adds it whenever the value is non-zero). -/
theorem C1_counterexample :
    untaggedCount [(("443", "tcp"), 2)]
        [("x", [("443", "tcp")]), ("y", [("443", "tcp")])] < 0
    ∧ dlookup (get_tag_count [(("443", "tcp"), 2)]
        [("x", [("443", "tcp")]), ("y", [("443", "tcp")])]) "untagged" = some (-2) := by
  decide

/-- C1 (amended): after all tags are processed, provided no lookup tag is
itself named `"untagged"`, the entry `"untagged" -> untagged` is present in
the result of `get_tag_count` if and only if `untagged = total -
tagged_entries` is NON-ZERO (not "positive": a negative value is stored
too). -/
theorem C1_untagged_entry_iff (f : FrequencyMap) (lk : LookupMap)
    (h : ∀ pr ∈ lk, pr.1 ≠ "untagged") :
    dlookup (get_tag_count f lk) "untagged" =
      if untaggedCount f lk = 0 then none else some (untaggedCount f lk) :=
  dlookup_get_tag_count_untagged f lk h

theorem C1_untagged_entry_iff_witness :
    dlookup (get_tag_count [(("80", "tcp"), 3), (("22", "tcp"), 2)]
        [("web", [("80", "tcp")])]) "untagged" =
      if untaggedCount [(("80", "tcp"), 3), (("22", "tcp"), 2)]
          [("web", [("80", "tcp")])] = 0 then none
      else some (untaggedCount [(("80", "tcp"), 3), (("22", "tcp"), 2)]
          [("web", [("80", "tcp")])]) :=
  C1_untagged_entry_iff [(("80", "tcp"), 3), (("22", "tcp"), 2)]
    [("web", [("80", "tcp")])] (by decide)

/-- C10 (counterexample): the claim says a tag whose listed Keys are all
absent from the FrequencyMap does not appear in the output at all, but a
lookup tag literally named `"untagged"` collides with the synthetic bucket:
here its only listed Key `("9","udp")` is absent, yet `"untagged"` appears in
the output (with the synthetic count 1). -/
theorem C10_counterexample :
    dlookup [(("80", "tcp"), 1)] (("9", "udp") : Key) = none
    ∧ dlookup (get_tag_count [(("80", "tcp"), 1)]
        [("untagged", [("9", "udp")])]) "untagged" = some 1 := by
  decide

/-- C10 (amended): the TagCountMap returned by `get_tag_count` contains no
zero-valued entries; a tag other than the literal `"untagged"` whose listed
Keys are all absent (or all of zero count) does not appear in the output at
all; and a Key occurrence with zero count leaves the loop state — in
particular `tagged_entries` — unchanged. -/
theorem C10_no_zero_entries (f : FrequencyMap) (lk : LookupMap) :
    (∀ t, dlookup (get_tag_count f lk) t ≠ some 0)
    ∧ (∀ t, t ≠ "untagged" →
        (∀ pr ∈ lk, pr.1 = t → ∀ p ∈ pr.2, (dlookup f p).getD 0 = 0) →
        dlookup (get_tag_count f lk) t = none)
    ∧ (∀ tag acc p, (dlookup f p).getD 0 = 0 → gtcStep f tag acc p = acc) := by
  refine ⟨?_, ?_, fun tag acc p h => gtcStep_zero f tag acc p h⟩
  · intro t
    have hpos := gtcLoop_posVals f lk
    unfold get_tag_count
    by_cases h0 : (totalentries f : Int) - ((gtcLoop f lk).2 : Int) = 0
    · simp only [h0, ne_eq, not_true_eq_false, if_false]
      intro hv
      have := hpos t 0 hv
      omega
    · simp only [ne_eq, h0, not_false_eq_true, if_true, dlookup_setItem]
      by_cases ht : t = "untagged"
      · simp only [ht, if_pos rfl]
        intro hv
        exact h0 (Option.some.inj hv)
      · simp only [if_neg ht]
        intro hv
        have := hpos t 0 hv
        omega
  · intro t ht hz
    have hnone : dlookup (gtcLoop f lk).1 t = none := by
      refine gtcLoop_fst_lookup_none f lk t (fun pr hpr => ?_)
      by_cases hp : pr.1 = t
      · exact Or.inr (hz pr hpr hp)
      · exact Or.inl hp
    unfold get_tag_count
    by_cases h0 : (totalentries f : Int) - ((gtcLoop f lk).2 : Int) = 0
    · simpa [h0] using hnone
    · simp only [ne_eq, h0, not_false_eq_true, if_true]
      rw [dlookup_setItem, if_neg ht]
      exact hnone

theorem C10_no_zero_entries_witness :
    dlookup (get_tag_count [(("80", "tcp"), 1)] [("ssh", [("22", "tcp")])]) "ssh" = none
    ∧ dlookup (get_tag_count [(("80", "tcp"), 1)]
        [("ssh", [("22", "tcp")])]) "untagged" ≠ some 0 :=
  ⟨(C10_no_zero_entries [(("80", "tcp"), 1)] [("ssh", [("22", "tcp")])]).2.1
      "ssh" (by decide) (by decide),
   (C10_no_zero_entries [(("80", "tcp"), 1)] [("ssh", [("22", "tcp")])]).1 "untagged"⟩

/-- C8: the Lookup-Entry parser splits each line on the comma into exactly 3
fields (anything else is a fatal error); a line whose raw tag field equals the
literal `"tag"` (case-sensitive, before lower-casing) is skipped and
contributes nothing; every other line appends `(port, protocol)` verbatim to
the list keyed by the lower-cased tag. -/
theorem C8_lookup_entry_parse (line : String) (freq : LookupMap) :
    ((lookupProcessLine line).length ≠ 3 → lookupStep freq line = none)
    ∧ (∀ p pr, lookupProcessLine line = [p, pr, "tag"] →
        lookupStep freq line = some freq)
    ∧ (∀ p pr t, lookupProcessLine line = [p, pr, t] → t ≠ "tag" →
        lookupStep freq line =
          some (setItem freq (pyLower t)
            ((dlookup freq (pyLower t)).getD [] ++ [(p, pr)]))) := by
  refine ⟨?_, ?_, ?_⟩
  · intro h
    unfold lookupStep
    split
    · rename_i p pr t heq
      rw [heq] at h
      simp at h
    · rfl
  · intro p pr heq
    unfold lookupStep
    rw [heq]
    simp
  · intro p pr t heq ht
    unfold lookupStep
    rw [heq]
    simp [ht]

theorem C8_lookup_entry_parse_witness :
    lookupStep [] "80,tcp,WEB" = some [("web", [("80", "tcp")])]
    ∧ lookupStep [] "p,pr,tag" = some []
    ∧ lookupStep [] "1,2,3,4" = none := by
  refine ⟨?_, (C8_lookup_entry_parse "p,pr,tag" []).2.1 "p" "pr" (by decide),
    (C8_lookup_entry_parse "1,2,3,4" []).1 (by decide)⟩
  have h := (C8_lookup_entry_parse "80,tcp,WEB" []).2.2 "80" "tcp" "WEB"
    (by decide) (by decide)
  rw [h]
  decide

/-- C7: the Flow-Record parser splits each line on single spaces into exactly
14 positional fields and keeps only the destination port (field 7) and the
protocol code (field 8) resolved through the injected protocol map,
incrementing that Key's count by 1; a line that does not split into exactly
14 fields is a fatal error for the whole batch; and three lines with
destination port 80 and protocol code 6 (mapped to `"tcp"`) yield the
FrequencyMap `{("80","tcp"): 3}`. -/
theorem C7_flow_record_parse (pmap : Int → Option String) :
    (∀ line, (logProcessLine line).length ≠ 14 → logParseLine pmap line = none)
    ∧ (∀ line f1 f2 f3 f4 f5 f6 f7 f8 f9 f10 f11 f12 f13 f14,
        logProcessLine line = [f1, f2, f3, f4, f5, f6, f7, f8, f9, f10, f11, f12, f13, f14] →
        logParseLine pmap line = ((pyInt f8).bind pmap).map fun name => (f7, name))
    ∧ (∀ batch line, line ∈ batch → logParseLine pmap line = none →
        logProcessEntry pmap batch = none)
    ∧ (pmap 6 = some "tcp" →
        logProcessEntry pmap
          ["2 123456789012 eni-0a1b2c3d 10.0.0.1 10.0.0.2 49153 80 6 25 20000 1620140761 1620140821 ACCEPT OK",
           "2 123456789012 eni-0a1b2c3d 10.0.0.1 10.0.0.2 49153 80 6 25 20000 1620140761 1620140821 ACCEPT OK",
           "2 123456789012 eni-0a1b2c3d 10.0.0.1 10.0.0.2 49153 80 6 25 20000 1620140761 1620140821 ACCEPT OK"] =
          some [(("80", "tcp"), 3)]) := by
  refine ⟨?_, ?_, ?_, ?_⟩
  · intro line h
    unfold logParseLine
    split
    · rename_i heq
      rw [heq] at h
      simp at h
    · rfl
  · intro line f1 f2 f3 f4 f5 f6 f7 f8 f9 f10 f11 f12 f13 f14 heq
    unfold logParseLine
    rw [heq]
    cases hi : pyInt f8 with
    | none => simp [hi]
    | some code =>
        cases hm : pmap code with
        | none => simp [hi, hm]
        | some name => simp [hi, hm]
  · intro batch line hmem hnone
    exact logFold_none_of_mem pmap batch line hmem hnone []
  · intro h6
    have hsplit : logProcessLine
        "2 123456789012 eni-0a1b2c3d 10.0.0.1 10.0.0.2 49153 80 6 25 20000 1620140761 1620140821 ACCEPT OK" =
        ["2", "123456789012", "eni-0a1b2c3d", "10.0.0.1", "10.0.0.2", "49153",
         "80", "6", "25", "20000", "1620140761", "1620140821", "ACCEPT", "OK"] := by
      decide
    have h6i : pyInt "6" = some 6 := by decide
    have hp : logParseLine pmap
        "2 123456789012 eni-0a1b2c3d 10.0.0.1 10.0.0.2 49153 80 6 25 20000 1620140761 1620140821 ACCEPT OK" =
        some ("80", "tcp") := by
      unfold logParseLine
      rw [hsplit]
      simp [h6i, h6]
    have hstep : ∀ freq : FrequencyMap, logStep pmap freq
        "2 123456789012 eni-0a1b2c3d 10.0.0.1 10.0.0.2 49153 80 6 25 20000 1620140761 1620140821 ACCEPT OK" =
        some (setItem freq ("80", "tcp") ((dlookup freq ("80", "tcp")).getD 0 + 1)) := by
      intro freq
      simp [logStep, hp]
    simp only [logProcessEntry, List.foldlM_cons, List.foldlM_nil, hstep,
      Option.bind_eq_bind, Option.some_bind]
    decide

theorem C7_flow_record_parse_witness :
    logParseLine (fun p => if p = 6 then some "tcp" else none) "too short" = none
    ∧ logProcessEntry (fun p => if p = 6 then some "tcp" else none)
        ["2 123456789012 eni-0a1b2c3d 10.0.0.1 10.0.0.2 49153 80 6 25 20000 1620140761 1620140821 ACCEPT OK",
         "bad line"] = none
    ∧ logProcessEntry (fun p => if p = 6 then some "tcp" else none)
        ["2 123456789012 eni-0a1b2c3d 10.0.0.1 10.0.0.2 49153 80 6 25 20000 1620140761 1620140821 ACCEPT OK",
         "2 123456789012 eni-0a1b2c3d 10.0.0.1 10.0.0.2 49153 80 6 25 20000 1620140761 1620140821 ACCEPT OK",
         "2 123456789012 eni-0a1b2c3d 10.0.0.1 10.0.0.2 49153 80 6 25 20000 1620140761 1620140821 ACCEPT OK"] =
        some [(("80", "tcp"), 3)] :=
  ⟨(C7_flow_record_parse (fun p => if p = 6 then some "tcp" else none)).1
      "too short" (by decide),
   (C7_flow_record_parse (fun p => if p = 6 then some "tcp" else none)).2.2.1 _
      "bad line" (by decide) (by decide),
   (C7_flow_record_parse (fun p => if p = 6 then some "tcp" else none)).2.2.2 (by decide)⟩

/-- C3: when every input line parses, the sum of the values of the
consolidated FrequencyMap produced by chunking, per-batch parsing and merging
equals the number of input lines — for every batch size `c > 0` (and the
pipeline does produce a map whenever the input is non-empty), and for every
order of merging the partial maps. -/
theorem C3_total_conserved (pmap : Int → Option String) (lines : List String)
    (hp : ∀ l ∈ lines, (logParseLine pmap l).isSome) :
    (∀ c m, 0 < c → process_file (logProcessEntry pmap) mergeFreq lines c = some m →
        sumValues m = lines.length)
    ∧ (lines ≠ [] → ∀ c, 0 < c →
        ∃ m, process_file (logProcessEntry pmap) mergeFreq lines c = some m)
    ∧ (∀ c parts q qs, 0 < c →
        (chunk lines c).mapM (logProcessEntry pmap) = some parts →
        (q :: qs).Perm parts → sumValues (qs.foldl mergeFreq q) = lines.length) := by
  have hsums : ∀ (c : Nat) (parts : List FrequencyMap), c ≠ 0 →
      (chunk lines c).mapM (logProcessEntry pmap) = some parts →
      (parts.map sumValues).sum = lines.length := by
    intro c parts hc hparts
    have hf2 := mapM_eq_some_forall2 _ _ _ hparts
    have hmap : parts.map sumValues = (chunk lines c).map List.length := by
      refine forall2_map_eq _ _ hf2 ?_
      intro b x hbx
      exact logProcessEntry_sumValues pmap b x hbx
    rw [hmap, ← List.length_flatten, chunk_flatten lines c hc]
  refine ⟨?_, ?_, ?_⟩
  · intro c m hc hm
    unfold process_file at hm
    cases hparts : (chunk lines c).mapM (logProcessEntry pmap) with
    | none => rw [hparts] at hm; exact absurd hm (by simp)
    | some parts =>
        rw [hparts] at hm
        cases parts with
        | nil => simp [pyreduce] at hm
        | cons q qs =>
            simp only [pyreduce, Option.some.injEq] at hm
            subst hm
            rw [sumValues_foldl_mergeFreq, ← List.sum_cons, ← List.map_cons]
            exact hsums c (q :: qs) (Nat.pos_iff_ne_zero.mp hc) hparts
  · intro hne c hc
    obtain ⟨mc, hmc, _⟩ := process_file_freq_char pmap lines c
      (Nat.pos_iff_ne_zero.mp hc) hne hp
    exact ⟨mc, hmc⟩
  · intro c parts q qs hc hparts hperm
    rw [sumValues_foldl_mergeFreq, ← List.sum_cons, ← List.map_cons]
    rw [List.Perm.sum_eq (List.Perm.map sumValues hperm)]
    exact hsums c parts (Nat.pos_iff_ne_zero.mp hc) hparts

theorem C3_total_conserved_witness :
    sumValues [(("443", "tcp"), 1), (("80", "tcp"), 1)] =
      ["2 a b c d 49153 443 6 25 20000 1 2 A OK",
       "2 a b c d 49153 80 6 25 20000 1 2 A OK"].length
    ∧ sumValues ([[(("80", "tcp"), 1)]].foldl mergeFreq [(("443", "tcp"), 1)]) =
      ["2 a b c d 49153 443 6 25 20000 1 2 A OK",
       "2 a b c d 49153 80 6 25 20000 1 2 A OK"].length :=
  ⟨(C3_total_conserved (fun p => if p = 6 then some "tcp" else none)
      ["2 a b c d 49153 443 6 25 20000 1 2 A OK",
       "2 a b c d 49153 80 6 25 20000 1 2 A OK"] (by decide)).1 1
      [(("443", "tcp"), 1), (("80", "tcp"), 1)] (by decide) (by decide),
   (C3_total_conserved (fun p => if p = 6 then some "tcp" else none)
      ["2 a b c d 49153 443 6 25 20000 1 2 A OK",
       "2 a b c d 49153 80 6 25 20000 1 2 A OK"] (by decide)).2.2 1
      [[(("443", "tcp"), 1)], [(("80", "tcp"), 1)]]
      [(("443", "tcp"), 1)] [[(("80", "tcp"), 1)]] (by decide) (by decide) (by decide)⟩

/-- C4: for every non-empty list of flow-log lines, every one of which
parses, and every `chunk_size > 0`, the chunk/map/merge pipeline succeeds,
processing the whole list as a single batch succeeds, and the two resulting
FrequencyMaps are the same map (same keys, same counts). -/
theorem C4_chunking_irrelevant (pmap : Int → Option String) (lines : List String)
    (c : Nat) (hc : 0 < c) (hne : lines ≠ [])
    (hp : ∀ l ∈ lines, (logParseLine pmap l).isSome) :
    (process_file (logProcessEntry pmap) mergeFreq lines c).isSome
    ∧ (logProcessEntry pmap lines).isSome
    ∧ (∀ m mc, logProcessEntry pmap lines = some m →
        process_file (logProcessEntry pmap) mergeFreq lines c = some mc →
        ∀ k, dlookup mc k = dlookup m k) := by
  obtain ⟨m0, hm0⟩ := logProcessEntry_isSome pmap lines hp
  obtain ⟨mc0, hmc0, hchar⟩ :=
    process_file_freq_char pmap lines c (Nat.pos_iff_ne_zero.mp hc) hne hp
  refine ⟨by simp [hmc0], by simp [hm0], ?_⟩
  intro m mc hm hmc k
  rw [hm0] at hm
  rw [hmc0] at hmc
  cases hm
  cases hmc
  rw [hchar k, logProcessEntry_dlookup pmap lines m0 hm0 k]

theorem C4_chunking_irrelevant_witness :
    dlookup ([(("443", "tcp"), 1), (("80", "tcp"), 2)] : FrequencyMap) ("80", "tcp") =
      dlookup ([(("443", "tcp"), 1), (("80", "tcp"), 2)] : FrequencyMap) ("80", "tcp") :=
  (C4_chunking_irrelevant (fun p => if p = 6 then some "tcp" else none)
      ["2 a b c d 49153 443 6 25 20000 1 2 A OK",
       "2 a b c d 49153 80 6 25 20000 1 2 A OK",
       "2 a b c d 49153 80 6 25 20000 1 2 A OK"] 2 (by decide) (by decide)
      (by decide)).2.2 [(("443", "tcp"), 1), (("80", "tcp"), 2)]
    [(("443", "tcp"), 1), (("80", "tcp"), 2)] (by decide) (by decide) ("80", "tcp")

/-- C5 (counterexample): the claim says folding any permutation of the
partial maps yields an IDENTICAL consolidated map for both map kinds, but for
LookupMap the value lists are concatenated in merge order: swapping two
partial lookup maps that share the tag `"web"` gives `["web" ->
[("80","tcp"),("22","tcp")]]` in one order and `["web" ->
[("22","tcp"),("80","tcp")]]` in the other — different maps (Python `==` is
false: the lists differ). -/
theorem C5_counterexample :
    ([[("web", [("22", "tcp")])], [("web", [("80", "tcp")])]] : List LookupMap).Perm
      [[("web", [("80", "tcp")])], [("web", [("22", "tcp")])]]
    ∧ pyreduce mergeLookup [[("web", [("80", "tcp")])], [("web", [("22", "tcp")])]] =
        some [("web", [("80", "tcp"), ("22", "tcp")])]
    ∧ pyreduce mergeLookup [[("web", [("22", "tcp")])], [("web", [("80", "tcp")])]] =
        some [("web", [("22", "tcp"), ("80", "tcp")])]
    ∧ dlookup ([("web", [("80", "tcp"), ("22", "tcp")])] : LookupMap) "web" ≠
        dlookup ([("web", [("22", "tcp"), ("80", "tcp")])] : LookupMap) "web" := by
  refine ⟨?_, by decide, by decide, by decide⟩
  exact List.Perm.swap _ _ _

/-- C5 (amended): for FrequencyMap partial maps (each a dict, so with unique
keys), folding any permutation with `merge` yields an identical consolidated
map; for LookupMap partial maps, folding a permutation yields a map with the
same tag set whose value list at each tag is a permutation of the original —
the lists follow the merge order, so they need not be identical. -/
theorem C5_reduce_permutation :
    (∀ (ps qs : List FrequencyMap) (m m' : FrequencyMap),
        qs.Perm ps → (∀ x ∈ ps, NodupKeys x) →
        pyreduce mergeFreq ps = some m → pyreduce mergeFreq qs = some m' →
        ∀ k, dlookup m' k = dlookup m k)
    ∧ (∀ (ps qs : List LookupMap) (m m' : LookupMap),
        qs.Perm ps → (∀ x ∈ ps, NodupKeys x) →
        pyreduce mergeLookup ps = some m → pyreduce mergeLookup qs = some m' →
        ∀ t, ((dlookup m' t).isSome = (dlookup m t).isSome
          ∧ ((dlookup m' t).getD []).Perm ((dlookup m t).getD []))) := by
  constructor
  · intro ps qs m m' hperm hnd hm hm' k
    have hnd' : ∀ x ∈ qs, NodupKeys x := fun x hx => hnd x (hperm.mem_iff.mp hx)
    rw [pyreduce_freq_char ps m hnd hm k, pyreduce_freq_char qs m' hnd' hm' k]
    rw [perm_any_eq _ hperm,
      List.Perm.sum_eq (List.Perm.map (fun x => (dlookup x k).getD 0) hperm)]
  · intro ps qs m m' hperm hnd hm hm' t
    have hnd' : ∀ x ∈ qs, NodupKeys x := fun x hx => hnd x (hperm.mem_iff.mp hx)
    rw [pyreduce_lookup_char ps m hnd hm t, pyreduce_lookup_char qs m' hnd' hm' t]
    rw [perm_any_eq _ hperm]
    by_cases hany : (ps.any fun x => (dlookup x t).isSome) = true
    · simp only [hany, if_true, Option.isSome_some, Option.getD_some, true_and]
      exact List.Perm.flatten
        (List.Perm.map (fun x => (dlookup x t).getD []) hperm)
    · simp only [Bool.not_eq_true] at hany
      simp [hany]

theorem C5_reduce_permutation_witness :
    dlookup ([(("22", "tcp"), 7), (("80", "tcp"), 1)] : FrequencyMap) ("80", "tcp") =
      dlookup ([(("80", "tcp"), 1), (("22", "tcp"), 7)] : FrequencyMap) ("80", "tcp")
    ∧ ((dlookup ([("web", [("22", "tcp"), ("80", "tcp")])] : LookupMap) "web").isSome =
        (dlookup ([("web", [("80", "tcp"), ("22", "tcp")])] : LookupMap) "web").isSome
      ∧ ((dlookup ([("web", [("22", "tcp"), ("80", "tcp")])] : LookupMap) "web").getD []).Perm
          ((dlookup ([("web", [("80", "tcp"), ("22", "tcp")])] : LookupMap) "web").getD [])) :=
  ⟨C5_reduce_permutation.1
      [[(("80", "tcp"), 1), (("22", "tcp"), 5)], [(("22", "tcp"), 2)]]
      [[(("22", "tcp"), 2)], [(("80", "tcp"), 1), (("22", "tcp"), 5)]]
      [(("80", "tcp"), 1), (("22", "tcp"), 7)]
      [(("22", "tcp"), 7), (("80", "tcp"), 1)]
      (by decide) (by decide) (by decide) (by decide) ("80", "tcp"),
   C5_reduce_permutation.2
      [[("web", [("80", "tcp")])], [("web", [("22", "tcp")])]]
      [[("web", [("22", "tcp")])], [("web", [("80", "tcp")])]]
      [("web", [("80", "tcp"), ("22", "tcp")])]
      [("web", [("22", "tcp"), ("80", "tcp")])]
      (by decide) (by decide) (by decide) (by decide) "web"⟩

end Flowlogs
